import Mathlib

/-!
# Verification of the fetch/clone engine specification

A shallow embedding of the fetch negotiation and ref-update reconciliation
engine of the `gix` clone component, together with theorems settling the
specified properties.  The implementation crates of the engine are not part
of the source tree under verification (only their test suite,
`gix/tests/clone/mod.rs`, is), so the engine itself is modelled from the
specification, component by component; concrete expected values (shallow
boundaries of the `base`/`base.shallow` fixtures) are taken verbatim from
the test suite.
-/

namespace GixClone

/-- A commit identifier; the tests use 40-character hex strings. -/
abbrev CommitId := String

/-- Modelled from the spec: the remote repository as the `ShallowNegotiator`'s
collaborator sees it — a finite commit graph with parent edges, commit
timestamps and a `HEAD` tip.  The spec's shallow semantics ("n generations
from its tips", "n additional generations from the current boundary",
"history back to a date") are computed over this graph, the remote being
authoritative for boundary contents. -/
structure RemoteRepo where
  commits : List CommitId
  parents : CommitId → List CommitId
  time : CommitId → Int
  head : CommitId

/-- All parents of the commits of a frontier, concatenated in order. -/
def collectParents (g : RemoteRepo) : List CommitId → List CommitId
  | [] => []
  | c :: rest => g.parents c ++ collectParents g rest

/-- One generation step of the remote's history walk: the parents of the
current frontier that have not been visited yet, deduplicated. -/
def nextLayer (g : RemoteRepo) (seen frontier : List CommitId) : List CommitId :=
  ((collectParents g frontier).dedup).filter (fun p => decide (p ∉ seen))

/-- Breadth-first generations of the remote history: `(bfs g n).1` is every
commit within `n` generations of `HEAD` (the commits a depth-`n+1` clone
receives), `(bfs g n).2` is the commits at generation exactly `n`. -/
def bfs (g : RemoteRepo) : Nat → List CommitId × List CommitId
  | 0 => ([g.head], [g.head])
  | n + 1 =>
    let s := bfs g n
    let nxt := nextLayer g s.1 s.2
    (s.1 ++ nxt, nxt)

/-- Commits within `n` generations of the remote `HEAD`. -/
def seenAt (g : RemoteRepo) (n : Nat) : List CommitId := (bfs g n).1

/-- Commits at generation exactly `n` from the remote `HEAD`. -/
def layerAt (g : RemoteRepo) (n : Nat) : List CommitId := (bfs g n).2

/-- Modelled from the spec: the shallow boundary the remote declares for a
depth-`n` request — the commits of the deepest transferred generation that
still have an untransferred parent (`DepthAtRemote(n)`: "ask remote for n
generations from its tips"; the boundary is "the set of commits beyond which
history is intentionally not retrieved"). -/
def depthBoundary (g : RemoteRepo) (n : Nat) : List CommitId :=
  (layerAt g (n - 1)).filter
    (fun c => (g.parents c).any (fun p => decide (p ∉ seenAt g (n - 1))))

/-- Every commit of the remote reachable from its `HEAD` (the walk is
exhausted after as many generations as there are commits). -/
def reachable (g : RemoteRepo) : List CommitId := seenAt g g.commits.length

/-- The local repository state the claims observe: the persisted shallow
file and the set of locally present commits reachable from `HEAD`. -/
structure LocalRepo where
  shallowFile : List CommitId
  localCommits : List CommitId

/-- `Repository::shallow_commits()`: the persisted boundary, or `none` when
the file is absent/empty. -/
def shallow_commits (r : LocalRepo) : Option (List CommitId) :=
  if r.shallowFile.isEmpty then none else some r.shallowFile

/-- `Repository::is_shallow()`: whether a non-empty boundary is persisted. -/
def is_shallow (r : LocalRepo) : Bool := !r.shallowFile.isEmpty

/-- Modelled from the spec: accepting a remote shallow reply persists the
remote-declared boundary verbatim — "persisted boundary always equals
exactly the commit ids the remote declared shallow in its last response
that the client accepted"; implementers do not fix up boundaries
client-side. -/
def persistReply (r : LocalRepo) (reply : List CommitId) : LocalRepo :=
  { r with shallowFile := reply }

/-- Modelled from the spec: the state of a fresh clone with
`ShallowRequest::DepthAtRemote(n)` — the remote transfers `n` generations
and declares the corresponding boundary. -/
def cloneAtDepth (g : RemoteRepo) (n : Nat) : LocalRepo :=
  { shallowFile := depthBoundary g n, localCommits := seenAt g (n - 1) }

/-- Modelled from the spec: `ShallowRequest::Undo` — "success forces
boundary to empty regardless of prior state"; the remote completes the
history. -/
def fetchUndo (g : RemoteRepo) (_r : LocalRepo) : LocalRepo :=
  { shallowFile := [], localCommits := reachable g }

/-- Modelled from the spec: `ShallowRequest::Deepen(k)` — "ask for k
additional generations from the current boundary"; the effective depth
grows from `oldDepth` to `oldDepth + k` and the remote declares the new
boundary. -/
def fetchDeepen (g : RemoteRepo) (oldDepth k : Nat) (_r : LocalRepo) : LocalRepo :=
  cloneAtDepth g (oldDepth + k)

/-- Modelled from the spec: the boundary the remote declares for a
date-bounded `Since{cutoff}` request — transferred commits are those not
older than the cutoff, and the boundary is the transferred commits having a
parent older than the cutoff. -/
def sinceBoundary (g : RemoteRepo) (cutoff : Int) : List CommitId :=
  (reachable g).filter
    (fun c => decide (cutoff ≤ g.time c) &&
      (g.parents c).any (fun p => decide (g.time p < cutoff)))

/-- Modelled from the spec: `ShallowRequest::Since{cutoff}` — "emits a
date-bounded deepen request"; the remote transfers history back to the
cutoff and declares the corresponding boundary. -/
def fetchSince (g : RemoteRepo) (cutoff : Int) (_r : LocalRepo) : LocalRepo :=
  { shallowFile := sinceBoundary g cutoff,
    localCommits := (reachable g).filter (fun c => decide (cutoff ≤ g.time c)) }

/-! ## RefspecMatcher -/

/-- An advertised remote reference. -/
structure RemoteRef where
  name : String
  target : String

/-- A fetch refspec: source pattern, destination pattern, force flag. -/
structure RefSpec where
  src : String
  dst : String
  force : Bool

/-- Provenance of a mapping: index into the configured refspecs, or into
the synthesized implicit (tag-following) refspecs. -/
inductive SpecIndex where
  | explicitInRemote (i : Nat)
  | implicit (i : Nat)
deriving DecidableEq

/-- One remote ref matched to a local destination by some refspec. -/
structure Mapping where
  remoteName : String
  localTarget : Option String
  spec_index : SpecIndex

/-- Split a pattern at its first `*`, if any. -/
def splitStar : List Char → Option (List Char × List Char)
  | [] => none
  | c :: rest =>
    if c = '*' then some ([], rest)
    else (splitStar rest).map (fun p => (c :: p.1, p.2))

/-- Glob-or-exact match of a refspec source pattern against a ref name. -/
def globMatch (pat name : String) : Bool :=
  match splitStar pat.toList with
  | none => pat.toList == name.toList
  | some (pre, suf) =>
    List.isPrefixOf pre name.toList &&
      List.isSuffixOf suf (name.toList.drop pre.length)

/-- The part of `name` matched by the `*` between `pre` and `suf`. -/
def globCapture (pre suf name : List Char) : List Char :=
  (name.drop pre.length).take (name.length - pre.length - suf.length)

/-- Instantiate a destination pattern with the part of `name` the source
pattern's `*` matched. -/
def globSubst (pat dst name : String) : String :=
  match splitStar pat.toList, splitStar dst.toList with
  | some (pre, suf), some (dpre, dsuf) =>
    ⟨dpre ++ globCapture pre suf name.toList ++ dsuf⟩
  | _, _ => dst

/-- Matches of one refspec against the advertised refs, in advertisement
order, each carrying the provenance index `idx`. -/
def matchSpec (advertised : List RemoteRef) (idx : SpecIndex) (s : RefSpec) :
    List Mapping :=
  (advertised.filter (fun r => globMatch s.src r.name)).map
    (fun r =>
      { remoteName := r.name,
        localTarget := if s.dst = "" then none else some (globSubst s.src s.dst r.name),
        spec_index := idx })

/-- Matches of a refspec list, in spec order, indices counted from `i`. -/
def matchAll (advertised : List RemoteRef) (mkIdx : Nat → SpecIndex) :
    Nat → List RefSpec → List Mapping
  | _, [] => []
  | i, s :: rest =>
    matchSpec advertised (mkIdx i) s ++ matchAll advertised mkIdx (i + 1) rest

/-- The implicit tag-following refspec `refs/tags/*:refs/tags/*`. -/
def tagSpec : RefSpec := { src := "refs/tags/*", dst := "refs/tags/*", force := false }

/-- Modelled from the spec: `RefspecMatcher.match` — every explicit spec is
matched against every advertised ref name (`SpecIndex::ExplicitInRemote`),
tag-following synthesizes implicit specs matched the same way
(`SpecIndex::Implicit`, indexing `extra_refspecs`); output order mirrors
`explicit_specs` then `extra_refspecs`. -/
def refspecMatch (advertised : List RemoteRef) (specs : List RefSpec)
    (followTags : Bool) : List Mapping × List RefSpec :=
  let extra := if followTags then [tagSpec] else []
  (matchAll advertised SpecIndex.explicitInRemote 0 specs ++
     matchAll advertised SpecIndex.implicit 0 extra,
   extra)

/-- Validity of a provenance index with respect to the configured refspec
count and the synthesized `extra_refspecs` count. -/
def SpecIndex.valid (idx : SpecIndex) (nExplicit nImplicit : Nat) : Prop :=
  match idx with
  | .explicitInRemote i => i < nExplicit
  | .implicit j => j < nImplicit

/-! ## TransactionalApplier and reflog -/

/-- Whether the session initialized a new repository (`clone`) or fetched
into an existing one (`fetch`). -/
inductive SessionKind where
  | cloneSession
  | fetchSession
deriving DecidableEq

/-- Modelled from the spec: the reflog message, "`<verb>: from
<source-url-or-description>`" with verb `clone` for a session that
initialized a new repository and `fetch` otherwise — a pure function of
session kind and source description only. -/
def reflogMessage (kind : SessionKind) (source : String) : String :=
  (match kind with
   | .cloneSession => "clone"
   | .fetchSession => "fetch") ++ ": from " ++ source

/-- One local ref edit (the `Update` case observed by the tests). -/
structure RefEdit where
  name : String
  newTarget : String
deriving DecidableEq

/-- The ref store plus its per-ref reflogs. -/
structure RefState where
  refs : String → Option String
  reflog : String → List String

/-- Whether applying `e` would change the ref's current value. -/
def refChanged (st : RefState) (e : RefEdit) : Bool :=
  !(st.refs e.name == some e.newTarget)

/-- Modelled from the spec: applying one ref edit — write the new target
and append exactly one reflog line when the ref actually changes; a
no-change edit leaves both untouched. -/
def applyEdit (kind : SessionKind) (source : String) (st : RefState)
    (e : RefEdit) : RefState :=
  if refChanged st e then
    { refs := fun r => if r = e.name then some e.newTarget else st.refs r,
      reflog := fun r =>
        if r = e.name then st.reflog r ++ [reflogMessage kind source]
        else st.reflog r }
  else st

/-- Apply a list of ref edits in order. -/
def applyEdits (kind : SessionKind) (source : String) :
    RefState → List RefEdit → RefState
  | st, [] => st
  | st, e :: rest => applyEdits kind source (applyEdit kind source st e) rest

/-- Apply ref edits to a bare ref mapping (the all-or-nothing payload of
the applier's grouped transaction). -/
def applyRefEdits (refs : String → Option String) :
    List RefEdit → String → Option String
  | [] => refs
  | e :: rest =>
    applyRefEdits (fun r => if r = e.name then some e.newTarget else refs r) rest

/-- Durable state the `TransactionalApplier` owns: the ref store, the pack
bundle's keep marker, and the shallow file. -/
structure ApplierState where
  refs : String → Option String
  keepMarkerPresent : Bool
  shallowFile : List CommitId

/-- The pack-bundle part of the `Outcome`. -/
structure WritePackBundle where
  keep_path : Option String

/-- Result of the applier: success with the pack-bundle record, or a
ref-store failure. -/
inductive ApplyOutcome where
  | ok (write_pack_bundle : WritePackBundle)
  | refStoreFailure

/-- Modelled from the spec: `TransactionalApplier.apply` — seal the pack
bundle under a keep marker first; apply every ref edit as one grouped
transaction (all or none); persist the shallow boundary; only after refs
are durably updated remove the keep marker, and retain it if ref
application failed.  `refStoreOk` abstracts the collaborator
`RefStore.apply` succeeding or failing after the bundle is sealed. -/
def applyTransaction (refStoreOk : Bool) (st : ApplierState)
    (edits : List RefEdit) (newShallow : List CommitId) :
    ApplyOutcome × ApplierState :=
  let sealed : ApplierState := { st with keepMarkerPresent := true }
  if refStoreOk then
    (.ok { keep_path := none },
     { refs := applyRefEdits sealed.refs edits,
       keepMarkerPresent := false,
       shallowFile := newShallow })
  else
    (.refStoreFailure, sealed)

/-! ## Clone preparation lifecycle -/

/-- The destination directory's contents, as entry names. -/
structure DirState where
  entries : List String

/-- Bare repository or one with a worktree. -/
inductive RepoKind where
  | bare
  | withWorktree
deriving DecidableEq

/-- The files created to host a newly initialized repository. -/
def repoScaffold (kind : RepoKind) : List String :=
  match kind with
  | .bare => ["HEAD", "config", "refs"]
  | .withWorktree => [".git/HEAD", ".git/config", ".git/refs"]

/-- The in-progress clone handle, owning the entries it created. -/
structure PrepareFetchHandle where
  createdEntries : List String

/-- Modelled from the spec and test `clone_and_destination_must_be_empty`:
`PrepareFetch::new` refuses a non-empty destination directory before any
durable artifact is created, leaving the destination untouched; on an
empty destination it initializes the repository scaffold and returns the
in-progress handle owning it. -/
def prepareFetchNew (dest : DirState) (kind : RepoKind) (destName : String) :
    Except String PrepareFetchHandle × DirState :=
  if dest.entries.isEmpty then
    (.ok { createdEntries := repoScaffold kind },
     { entries := dest.entries ++ repoScaffold kind })
  else
    (.error ("Refusing to initialize the non-empty directory as " ++ destName),
     dest)

/-- Modelled from the spec: discarding the in-progress handle before the
commit step removes every directory and file created solely to host the
new repository. -/
def dropHandle (h : PrepareFetchHandle) (d : DirState) : DirState :=
  { entries := d.entries.filter (fun f => decide (f ∉ h.createdEntries)) }

/-- Modelled from the spec and test `clone_and_early_persist_without_receive`:
explicitly persisting the handle keeps the initialized repository. -/
def persistHandle (_h : PrepareFetchHandle) (d : DirState) : DirState := d

/-! ## Shallow-remote policy -/

/-- The fetch errors the claims observe. -/
inductive FetchError where
  | rejectShallowRemote
deriving DecidableEq

/-- Modelled from the spec and tests `from_shallow_prohibited_with_option` /
`from_shallow_allowed_by_default`: fetching from an already-shallow remote
fails with `RejectShallowRemote` exactly when a policy
(`clone.rejectShallow`) forbids it and the remote declares a non-trivial
shallow boundary; otherwise the remote-declared boundary is persisted
verbatim. -/
def fetchFromShallowRemote (rejectShallow : Bool) (remoteBoundary : List CommitId)
    (r : LocalRepo) : Except FetchError LocalRepo :=
  if rejectShallow && !remoteBoundary.isEmpty then .error .rejectShallowRemote
  else .ok (persistReply r remoteBoundary)

/-! ## Concrete fixtures -/

/-- The boundary the test `from_shallow_allowed_by_default` asserts is
persisted after cloning the `base.shallow` fixture
(`gix/tests/clone/mod.rs`, the `assert_eq!` on `shallow_commits()`): the
commit id `dfd0954d…` occurs twice in it. -/
def baseShallowBoundary : List CommitId :=
  ["2d9d136fb0765f2e24c44a0f91984318d580d03b",
   "dfd0954dabef3b64f458321ef15571cc1a46d552",
   "dfd0954dabef3b64f458321ef15571cc1a46d552"]

/-- A small remote with a linear history `c0 ← c1 ← c2 ← c3`, used to
instantiate the shallow-transition theorems. -/
def chainRepo : RemoteRepo where
  commits := ["c0", "c1", "c2", "c3"]
  parents := fun c =>
    if c = "c3" then ["c2"]
    else if c = "c2" then ["c1"]
    else if c = "c1" then ["c0"]
    else []
  time := fun c => if c = "c0" then 10 else 20
  head := "c3"

/-- A small advertisement for instantiating the matcher theorems. -/
def demoAdvertised : List RemoteRef :=
  [{ name := "refs/heads/main", target := "c3" },
   { name := "refs/tags/v1", target := "t1" }]

/-- A single explicit refspec for instantiating the matcher theorems. -/
def demoSpecs : List RefSpec :=
  [{ src := "refs/heads/*", dst := "refs/remotes/origin/*", force := true }]

/-- An empty ref store with empty reflogs. -/
def demoRefState : RefState where
  refs := fun _ => none
  reflog := fun _ => []

/-- Two edits with distinct destination refs. -/
def demoEdits : List RefEdit :=
  [{ name := "refs/remotes/origin/main", newTarget := "c3" },
   { name := "refs/tags/v1", newTarget := "t1" }]

/-- An applier state for instantiating the atomicity theorem. -/
def demoApplierState : ApplierState where
  refs := fun _ => none
  keepMarkerPresent := false
  shallowFile := []

/-! ## Generic lemmas about the generation walk -/

theorem seenAt_succ (g : RemoteRepo) (n : Nat) :
    seenAt g (n + 1) = seenAt g n ++ nextLayer g (seenAt g n) (layerAt g n) := rfl

theorem layerAt_succ (g : RemoteRepo) (n : Nat) :
    layerAt g (n + 1) = nextLayer g (seenAt g n) (layerAt g n) := rfl

theorem mem_collectParents {g : RemoteRepo} {p : CommitId} {l : List CommitId} :
    p ∈ collectParents g l ↔ ∃ c ∈ l, p ∈ g.parents c := by
  induction l with
  | nil => simp [collectParents]
  | cons c rest ih => simp [collectParents, ih]

theorem mem_nextLayer {g : RemoteRepo} {seen frontier : List CommitId} {p : CommitId} :
    p ∈ nextLayer g seen frontier ↔ (∃ c ∈ frontier, p ∈ g.parents c) ∧ p ∉ seen := by
  simp [nextLayer, List.mem_filter, List.mem_dedup, mem_collectParents]

theorem layerAt_subset_seenAt (g : RemoteRepo) (n : Nat) :
    layerAt g n ⊆ seenAt g n := by
  cases n with
  | zero => exact fun c hc => hc
  | succ m =>
    intro c hc
    rw [seenAt_succ]
    exact List.mem_append_right _ hc

theorem seenAt_mono (g : RemoteRepo) {m n : Nat} (h : m ≤ n) :
    seenAt g m ⊆ seenAt g n := by
  induction n with
  | zero => cases Nat.le_zero.mp h; exact fun c hc => hc
  | succ k ih =>
    rcases Nat.lt_or_ge m (k + 1) with hlt | hge
    · intro c hc
      rw [seenAt_succ]
      exact List.mem_append_left _ (ih (Nat.lt_succ_iff.mp hlt) hc)
    · cases Nat.le_antisymm h hge
      exact fun c hc => hc

theorem not_mem_seenAt_of_mem_layerAt_succ {g : RemoteRepo} {n : Nat} {c : CommitId}
    (hc : c ∈ layerAt g (n + 1)) : c ∉ seenAt g n := by
  rw [layerAt_succ] at hc
  exact (mem_nextLayer.mp hc).2

theorem layerAt_disjoint {g : RemoteRepo} {i j : Nat} (hij : i < j) {c : CommitId}
    (hi : c ∈ layerAt g i) (hj : c ∈ layerAt g j) : False := by
  obtain ⟨k, rfl⟩ := Nat.exists_eq_add_of_lt hij
  have hj' : c ∈ layerAt g (i + k + 1) := by
    have : i + k + 1 = i + 1 + k := by omega
    rw [this] at hj ⊢
    exact hj
  exact not_mem_seenAt_of_mem_layerAt_succ hj'
    (seenAt_mono g (Nat.le_add_right i k) (layerAt_subset_seenAt g i hi))

theorem seenAt_length_succ (g : RemoteRepo) (n : Nat) :
    (seenAt g (n + 1)).length = (seenAt g n).length + (layerAt g (n + 1)).length := by
  rw [seenAt_succ, layerAt_succ, List.length_append]

theorem seenAt_length_mono (g : RemoteRepo) {m n : Nat} (h : m ≤ n) :
    (seenAt g m).length ≤ (seenAt g n).length := by
  induction n with
  | zero => cases Nat.le_zero.mp h; exact Nat.le_refl _
  | succ k ih =>
    rcases Nat.lt_or_ge m (k + 1) with hlt | hge
    · calc (seenAt g m).length ≤ (seenAt g k).length := ih (Nat.lt_succ_iff.mp hlt)
        _ ≤ (seenAt g (k + 1)).length := by rw [seenAt_length_succ]; omega
    · cases Nat.le_antisymm h hge
      exact Nat.le_refl _

theorem seenAt_length_strict (g : RemoteRepo) {n : Nat}
    (h : layerAt g (n + 1) ≠ []) :
    (seenAt g n).length < (seenAt g (n + 1)).length := by
  rw [seenAt_length_succ]
  have := List.length_pos.mpr h
  omega

/-- A non-empty depth boundary forces the next generation to be non-empty:
the boundary witnesses an untransferred parent, which is exactly what the
remote sends next when deepening. -/
theorem layer_succ_nonempty_of_boundary {g : RemoteRepo} {n : Nat}
    (h : depthBoundary g (n + 1) ≠ []) : layerAt g (n + 1) ≠ [] := by
  obtain ⟨c, hc⟩ := List.exists_mem_of_ne_nil _ h
  have hc' := List.mem_filter.mp hc
  obtain ⟨p, hp, hps⟩ := List.any_eq_true.mp hc'.2
  have hpn : p ∉ seenAt g n := by
    simpa using hps
  intro hemp
  apply hpn
  have : p ∈ layerAt g (n + 1) := by
    rw [layerAt_succ, mem_nextLayer]
    refine ⟨⟨c, ?_, hp⟩, hpn⟩
    simpa using hc'.1
  rw [hemp] at this
  exact absurd this (List.not_mem_nil p)

theorem layerAt_empty_succ (g : RemoteRepo) {n : Nat} (h : layerAt g n = []) :
    layerAt g (n + 1) = [] := by
  rw [layerAt_succ, h]
  simp [nextLayer, collectParents]

theorem layerAt_eq_nil_mono (g : RemoteRepo) {m n : Nat} (h : m ≤ n)
    (hm : layerAt g m = []) : layerAt g n = [] := by
  induction n with
  | zero => cases Nat.le_zero.mp h; exact hm
  | succ k ih =>
    rcases Nat.lt_or_ge m (k + 1) with hlt | hge
    · exact layerAt_empty_succ g (ih (Nat.lt_succ_iff.mp hlt))
    · cases Nat.le_antisymm h hge
      exact hm

theorem seenAt_length_lower (g : RemoteRepo) {n : Nat} (h : layerAt g n ≠ []) :
    n + 1 ≤ (seenAt g n).length := by
  induction n with
  | zero => simp [seenAt, bfs]
  | succ k ih =>
    have hk : layerAt g k ≠ [] := fun he => h (layerAt_empty_succ g he)
    have h1 := ih hk
    have h2 := List.length_pos.mpr h
    rw [seenAt_length_succ]
    omega

theorem seenAt_nodup (g : RemoteRepo) (n : Nat) : (seenAt g n).Nodup := by
  induction n with
  | zero => simp [seenAt, bfs]
  | succ k ih =>
    rw [seenAt_succ]
    refine List.Nodup.append ih ((List.nodup_dedup _).filter _) ?_
    intro a ha hx
    exact (mem_nextLayer.mp hx).2 ha

theorem seenAt_subset_commits (g : RemoteRepo) (hmem : g.head ∈ g.commits)
    (hclosed : ∀ c ∈ g.commits, ∀ p ∈ g.parents c, p ∈ g.commits) (n : Nat) :
    seenAt g n ⊆ g.commits := by
  induction n with
  | zero =>
    intro c hc
    simp only [seenAt, bfs, List.mem_singleton] at hc
    exact hc ▸ hmem
  | succ k ih =>
    intro c hc
    rw [seenAt_succ] at hc
    rcases List.mem_append.mp hc with h | h
    · exact ih h
    · obtain ⟨⟨d, hd, hpd⟩, _⟩ := mem_nextLayer.mp h
      exact hclosed d (ih (layerAt_subset_seenAt g k hd)) c hpd

theorem layer_nonempty_le_commits (g : RemoteRepo) (hmem : g.head ∈ g.commits)
    (hclosed : ∀ c ∈ g.commits, ∀ p ∈ g.parents c, p ∈ g.commits) {n : Nat}
    (h : layerAt g n ≠ []) : n + 1 ≤ g.commits.length :=
  Nat.le_trans (seenAt_length_lower g h)
    (List.subperm_of_subset (seenAt_nodup g n)
      (seenAt_subset_commits g hmem hclosed n)).length_le

/-- The number of commits of a properly shallow depth-`n` clone is strictly
below the full reachable history of the remote. -/
theorem shallow_count_lt_reachable (g : RemoteRepo) (n : Nat)
    (hmem : g.head ∈ g.commits)
    (hclosed : ∀ c ∈ g.commits, ∀ p ∈ g.parents c, p ∈ g.commits)
    (hb : depthBoundary g n ≠ []) :
    (seenAt g (n - 1)).length < (reachable g).length := by
  have hb' : depthBoundary g (n - 1 + 1) ≠ [] := hb
  have hlayer : layerAt g (n - 1 + 1) ≠ [] := layer_succ_nonempty_of_boundary hb'
  have hle : n - 1 + 1 + 1 ≤ g.commits.length :=
    layer_nonempty_le_commits g hmem hclosed hlayer
  calc (seenAt g (n - 1)).length
      < (seenAt g (n - 1 + 1)).length := seenAt_length_strict g hlayer
    _ ≤ (reachable g).length := seenAt_length_mono g (by omega)

/-- Boundaries live in the deepest transferred generation. -/
theorem depthBoundary_subset_layer (g : RemoteRepo) (n : Nat) :
    depthBoundary g n ⊆ layerAt g (n - 1) := fun _ hc =>
  (List.mem_filter.mp hc).1

/-! ## Matcher lemmas -/

theorem mem_matchSpec_spec_index {advertised : List RemoteRef} {idx : SpecIndex}
    {s : RefSpec} {m : Mapping} (hm : m ∈ matchSpec advertised idx s) :
    m.spec_index = idx := by
  simp only [matchSpec, List.mem_map] at hm
  obtain ⟨r, _, rfl⟩ := hm
  rfl

theorem mem_matchAll_bound {advertised : List RemoteRef} {mkIdx : Nat → SpecIndex} :
    ∀ {specs : List RefSpec} {i : Nat} {m : Mapping},
      m ∈ matchAll advertised mkIdx i specs →
      ∃ j, j < specs.length ∧ m.spec_index = mkIdx (i + j) := by
  intro specs
  induction specs with
  | nil =>
    intro i m hm
    simp [matchAll] at hm
  | cons s rest ih =>
    intro i m hm
    simp only [matchAll] at hm
    rcases List.mem_append.mp hm with h | h
    · exact ⟨0, by simp, mem_matchSpec_spec_index h⟩
    · obtain ⟨j, hj, hje⟩ := ih h
      refine ⟨j + 1, by simpa using Nat.succ_lt_succ hj, ?_⟩
      have harith : i + 1 + j = i + (j + 1) := by omega
      rw [harith] at hje
      exact hje

/-! ## Ref-edit and reflog lemmas -/

theorem applyEdit_reflog_other (kind : SessionKind) (source : String)
    (st : RefState) (e : RefEdit) {x : String} (hx : x ≠ e.name) :
    (applyEdit kind source st e).reflog x = st.reflog x := by
  unfold applyEdit
  split
  · simp [hx]
  · rfl

theorem applyEdit_refs_other (kind : SessionKind) (source : String)
    (st : RefState) (e : RefEdit) {x : String} (hx : x ≠ e.name) :
    (applyEdit kind source st e).refs x = st.refs x := by
  unfold applyEdit
  split
  · simp [hx]
  · rfl

theorem refChanged_applyEdit (kind : SessionKind) (source : String)
    (st : RefState) {e' e : RefEdit} (hx : e.name ≠ e'.name) :
    refChanged (applyEdit kind source st e') e = refChanged st e := by
  unfold refChanged
  rw [applyEdit_refs_other kind source st e' hx]

theorem applyEdits_reflog_unchanged (kind : SessionKind) (source : String) :
    ∀ (edits : List RefEdit) (st : RefState) (x : String),
      x ∉ edits.map RefEdit.name →
      (applyEdits kind source st edits).reflog x = st.reflog x := by
  intro edits
  induction edits with
  | nil =>
    intro st x _
    rfl
  | cons e rest ih =>
    intro st x hx
    simp only [List.map_cons, List.mem_cons, not_or] at hx
    simp only [applyEdits]
    rw [ih _ _ hx.2, applyEdit_reflog_other kind source st e hx.1]

/-- Each applied edit that changes its ref appends exactly the reflog
message of the session, once. -/
theorem applyEdits_reflog_changed (kind : SessionKind) (source : String) :
    ∀ (edits : List RefEdit) (st : RefState) (e : RefEdit),
      (edits.map RefEdit.name).Nodup → e ∈ edits → refChanged st e = true →
      (applyEdits kind source st edits).reflog e.name =
        st.reflog e.name ++ [reflogMessage kind source] := by
  intro edits
  induction edits with
  | nil =>
    intro st e _ he _
    exact absurd he (List.not_mem_nil e)
  | cons e' rest ih =>
    intro st e hnd he hch
    simp only [List.map_cons, List.nodup_cons] at hnd
    simp only [applyEdits]
    rcases List.mem_cons.mp he with rfl | hmem
    · have h1 : (applyEdit kind source st e).reflog e.name =
          st.reflog e.name ++ [reflogMessage kind source] := by
        unfold applyEdit
        rw [if_pos hch]
        simp
      rw [applyEdits_reflog_unchanged kind source rest _ e.name hnd.1, h1]
    · have hne : e.name ≠ e'.name := by
        intro hEq
        exact hnd.1 (hEq ▸ List.mem_map_of_mem RefEdit.name hmem)
      rw [ih (applyEdit kind source st e') e hnd.2 hmem
            (by rw [refChanged_applyEdit kind source st hne]; exact hch),
          applyEdit_reflog_other kind source st e' hne]

/-! ## Claim theorems -/

/-- C1 (counterexample): the claim says the persisted boundary never
contains a commit id more than once; yet the boundary the code's own test
`from_shallow_allowed_by_default` asserts is persisted for the
`base.shallow` fixture contains `dfd0954d…` twice, and the session
persists it verbatim. -/
theorem shallow_boundary_duplicate_counterexample :
    shallow_commits (persistReply { shallowFile := [], localCommits := [] }
        baseShallowBoundary) = some baseShallowBoundary ∧
    ¬ baseShallowBoundary.Nodup := by
  constructor
  · rfl
  · decide

/-- C1 (amended): the persisted `ShallowBoundary` is exactly the ordered
list of commit ids the remote declared shallow, read back verbatim by
`shallow_commits()` — it may contain a commit id more than once — and an
empty/absent boundary means the repository is complete (`is_shallow()` is
false exactly when the declared list is empty). -/
theorem shallow_boundary_verbatim (r : LocalRepo) (reply : List CommitId) :
    (persistReply r reply).shallowFile = reply ∧
    (shallow_commits (persistReply r reply) = none ↔ reply = []) ∧
    (is_shallow (persistReply r reply) = false ↔ reply = []) := by
  refine ⟨rfl, ?_, ?_⟩ <;>
    cases reply <;> simp [persistReply, shallow_commits, is_shallow]

/-- C2: atomicity of the `TransactionalApplier` — if `RefStore.apply`
fails after the pack bundle is sealed, the keep marker remains present and
no local ref is observably changed; when every ref edit is durably
applied, the keep marker is removed and the `Outcome`'s
`write_pack_bundle.keep_path` is absent. -/
theorem applier_atomicity (refStoreOk : Bool) (st : ApplierState)
    (edits : List RefEdit) (newShallow : List CommitId) :
    (refStoreOk = false →
      (applyTransaction refStoreOk st edits newShallow).2.keepMarkerPresent = true ∧
      (applyTransaction refStoreOk st edits newShallow).2.refs = st.refs ∧
      (applyTransaction refStoreOk st edits newShallow).1 = .refStoreFailure) ∧
    (refStoreOk = true →
      (applyTransaction refStoreOk st edits newShallow).2.keepMarkerPresent = false ∧
      (applyTransaction refStoreOk st edits newShallow).1 =
        .ok { keep_path := none }) := by
  constructor <;> rintro rfl <;> simp [applyTransaction]

theorem applier_atomicity_witness :
    ((applyTransaction false demoApplierState demoEdits []).2.keepMarkerPresent = true ∧
     (applyTransaction false demoApplierState demoEdits []).2.refs = demoApplierState.refs ∧
     (applyTransaction false demoApplierState demoEdits []).1 = .refStoreFailure) ∧
    ((applyTransaction true demoApplierState demoEdits []).2.keepMarkerPresent = false ∧
     (applyTransaction true demoApplierState demoEdits []).1 =
       .ok { keep_path := none }) :=
  ⟨(applier_atomicity false demoApplierState demoEdits []).1 rfl,
   (applier_atomicity true demoApplierState demoEdits []).2 rfl⟩

/-- C4: fetching from an already-shallow remote (one declaring a non-empty
boundary) fails with `RejectShallowRemote` if and only if the
`clone.rejectShallow` policy is in effect; with default settings the fetch
succeeds and persists the remote-declared boundary. -/
theorem reject_shallow_remote_iff (rejectShallow : Bool)
    (remoteBoundary : List CommitId) (r : LocalRepo)
    (hshallow : remoteBoundary ≠ []) :
    (fetchFromShallowRemote rejectShallow remoteBoundary r =
        .error .rejectShallowRemote ↔ rejectShallow = true) ∧
    (rejectShallow = false →
      fetchFromShallowRemote rejectShallow remoteBoundary r =
        .ok (persistReply r remoteBoundary) ∧
      shallow_commits (persistReply r remoteBoundary) = some remoteBoundary) := by
  have hne : remoteBoundary.isEmpty = false := by
    simp [List.isEmpty_iff, hshallow]
  cases rejectShallow with
  | false =>
    refine ⟨?_, fun _ => ⟨?_, ?_⟩⟩
    · simp [fetchFromShallowRemote]
    · simp [fetchFromShallowRemote]
    · simp [persistReply, shallow_commits, hne]
  | true =>
    refine ⟨?_, fun h => absurd h (by simp)⟩
    simp [fetchFromShallowRemote, hne]

theorem reject_shallow_remote_iff_witness :
    baseShallowBoundary ≠ [] ∧
    ((fetchFromShallowRemote true baseShallowBoundary
        { shallowFile := [], localCommits := [] } =
        .error .rejectShallowRemote ↔ (true : Bool) = true) ∧
     ((true : Bool) = false →
       fetchFromShallowRemote true baseShallowBoundary
           { shallowFile := [], localCommits := [] } =
         .ok (persistReply { shallowFile := [], localCommits := [] }
           baseShallowBoundary) ∧
       shallow_commits (persistReply { shallowFile := [], localCommits := [] }
           baseShallowBoundary) = some baseShallowBoundary)) :=
  ⟨by decide,
   reject_shallow_remote_iff true baseShallowBoundary
     { shallowFile := [], localCommits := [] } (by decide)⟩

/-- C3: a clone session into a newly created repository that is abandoned
before the commit step (the in-progress handle is dropped without
fetching) removes every entry created to host the new repository, so no
partially-initialized repository remains discoverable; explicitly
persisting the handle keeps the initialized repository. -/
theorem abandoned_clone_cleanup (dest : DirState) (kind : RepoKind)
    (destName : String) (hempty : dest.entries = []) :
    ∃ h d', prepareFetchNew dest kind destName = (.ok h, d') ∧
      (dropHandle h d').entries = [] ∧
      (persistHandle h d').entries = repoScaffold kind := by
  refine ⟨{ createdEntries := repoScaffold kind },
    { entries := dest.entries ++ repoScaffold kind }, ?_, ?_, ?_⟩
  · rw [prepareFetchNew, if_pos (by rw [hempty]; rfl)]
  · rw [dropHandle]
    simp only [hempty, List.nil_append]
    rw [List.filter_eq_nil_iff.mpr]
    intro a ha
    simp [ha]
  · rw [persistHandle]
    simp [hempty]

theorem abandoned_clone_cleanup_witness :
    (DirState.mk []).entries = [] ∧
    (∃ h d', prepareFetchNew (DirState.mk []) RepoKind.bare "/tmp/dst" = (.ok h, d') ∧
      (dropHandle h d').entries = [] ∧
      (persistHandle h d').entries = repoScaffold RepoKind.bare) :=
  ⟨rfl, abandoned_clone_cleanup (DirState.mk []) RepoKind.bare "/tmp/dst" rfl⟩

/-- C10: constructing the clone session with `PrepareFetch::new` into a
destination directory that already contains any entry fails with an error
message beginning `Refusing to initialize the non-empty directory as `,
before any durable artifact is created, and the destination's pre-existing
contents are left unchanged. -/
theorem prepare_nonempty_destination_refused (dest : DirState) (kind : RepoKind)
    (destName : String) (hne : dest.entries ≠ []) :
    (prepareFetchNew dest kind destName).1 =
      .error ("Refusing to initialize the non-empty directory as " ++ destName) ∧
    (prepareFetchNew dest kind destName).2 = dest := by
  have hfalse : dest.entries.isEmpty = false := by
    simp [List.isEmpty_iff, hne]
  rw [prepareFetchNew, if_neg (by simp [hfalse])]
  exact ⟨rfl, rfl⟩

theorem prepare_nonempty_destination_refused_witness :
    (DirState.mk ["file"]).entries ≠ [] ∧
    ((prepareFetchNew (DirState.mk ["file"]) RepoKind.bare "/tmp/dst").1 =
      .error ("Refusing to initialize the non-empty directory as " ++ "/tmp/dst") ∧
     (prepareFetchNew (DirState.mk ["file"]) RepoKind.bare "/tmp/dst").2 =
       DirState.mk ["file"]) :=
  ⟨by decide,
   prepare_nonempty_destination_refused (DirState.mk ["file"]) RepoKind.bare
     "/tmp/dst" (by decide)⟩

/-- C8: for every fetch whose explicit refspecs match at least one
advertised ref, every resulting `Mapping`'s `spec_index` is a valid index:
`SpecIndex::ExplicitInRemote(i)` satisfies `i < specs.length` and
`SpecIndex::Implicit(j)` satisfies `j < extra_refspecs.length`; no mapping
references a nonexistent spec. -/
theorem mapping_spec_index_valid (advertised : List RemoteRef)
    (specs : List RefSpec) (followTags : Bool)
    (_hmatch : ∃ s ∈ specs, ∃ r ∈ advertised, globMatch s.src r.name = true) :
    ∀ m ∈ (refspecMatch advertised specs followTags).1,
      m.spec_index.valid specs.length
        (refspecMatch advertised specs followTags).2.length := by
  intro m hm
  simp only [refspecMatch] at hm ⊢
  rcases List.mem_append.mp hm with h | h
  · obtain ⟨j, hj, hje⟩ := mem_matchAll_bound h
    rw [hje]
    simpa [SpecIndex.valid] using hj
  · obtain ⟨j, hj, hje⟩ := mem_matchAll_bound h
    rw [hje]
    simpa [SpecIndex.valid] using hj

theorem mapping_spec_index_valid_witness :
    (∃ s ∈ demoSpecs, ∃ r ∈ demoAdvertised, globMatch s.src r.name = true) ∧
    (∀ m ∈ (refspecMatch demoAdvertised demoSpecs true).1,
      m.spec_index.valid demoSpecs.length
        (refspecMatch demoAdvertised demoSpecs true).2.length) :=
  ⟨by decide, mapping_spec_index_valid demoAdvertised demoSpecs true (by decide)⟩

/-- C9: in a session that initialized a new repository, every applied edit
that changes a ref appends exactly one reflog line, whose message is
`clone: from ` followed by the source description; the message is the pure
function `reflogMessage` of session kind and source description only, so
it does not depend on the number of edits. -/
theorem clone_reflog_per_edit (source : String) (st : RefState)
    (edits : List RefEdit) (hnd : (edits.map RefEdit.name).Nodup)
    (e : RefEdit) (he : e ∈ edits) (hch : refChanged st e = true) :
    (applyEdits .cloneSession source st edits).reflog e.name =
      st.reflog e.name ++ ["clone: from " ++ source] ∧
    ((applyEdits .cloneSession source st edits).reflog e.name).length =
      (st.reflog e.name).length + 1 ∧
    reflogMessage SessionKind.cloneSession source = "clone: from " ++ source := by
  have hmsg : reflogMessage SessionKind.cloneSession source =
      "clone: from " ++ source := rfl
  have hmain := applyEdits_reflog_changed SessionKind.cloneSession source
    edits st e hnd he hch
  rw [hmsg] at hmain
  refine ⟨hmain, ?_, hmsg⟩
  rw [hmain]
  simp

theorem clone_reflog_per_edit_witness :
    ((demoEdits.map RefEdit.name).Nodup ∧
      RefEdit.mk "refs/remotes/origin/main" "c3" ∈ demoEdits ∧
      refChanged demoRefState (RefEdit.mk "refs/remotes/origin/main" "c3") = true) ∧
    ((applyEdits .cloneSession "/abs/path/base" demoRefState demoEdits).reflog
        (RefEdit.mk "refs/remotes/origin/main" "c3").name =
      demoRefState.reflog (RefEdit.mk "refs/remotes/origin/main" "c3").name ++
        ["clone: from " ++ "/abs/path/base"] ∧
     ((applyEdits .cloneSession "/abs/path/base" demoRefState demoEdits).reflog
        (RefEdit.mk "refs/remotes/origin/main" "c3").name).length =
      (demoRefState.reflog (RefEdit.mk "refs/remotes/origin/main" "c3").name).length + 1 ∧
     reflogMessage SessionKind.cloneSession "/abs/path/base" =
       "clone: from " ++ "/abs/path/base") :=
  ⟨⟨by decide, by decide, by decide⟩,
   clone_reflog_per_edit "/abs/path/base" demoRefState demoEdits (by decide)
     (RefEdit.mk "refs/remotes/origin/main" "c3") (by decide) (by decide)⟩

/-- C5: for a repository cloned with `DepthAtRemote(2)` whose resulting
state is shallow, a later fetch with `Undo` yields an empty
`ShallowBoundary` (`shallow_commits()` is absent and `is_shallow()` is
false) and strictly more commits reachable from `HEAD` than the shallow
state had. -/
theorem depth_two_then_undo (g : RemoteRepo)
    (hmem : g.head ∈ g.commits)
    (hclosed : ∀ c ∈ g.commits, ∀ p ∈ g.parents c, p ∈ g.commits)
    (hsh : is_shallow (cloneAtDepth g 2) = true) :
    shallow_commits (fetchUndo g (cloneAtDepth g 2)) = none ∧
    is_shallow (fetchUndo g (cloneAtDepth g 2)) = false ∧
    (cloneAtDepth g 2).localCommits.length <
      (fetchUndo g (cloneAtDepth g 2)).localCommits.length := by
  refine ⟨rfl, rfl, ?_⟩
  have hb : depthBoundary g 2 ≠ [] := by
    simpa [is_shallow, cloneAtDepth, List.isEmpty_iff] using hsh
  exact shallow_count_lt_reachable g 2 hmem hclosed hb

theorem depth_two_then_undo_witness :
    (chainRepo.head ∈ chainRepo.commits ∧
     (∀ c ∈ chainRepo.commits, ∀ p ∈ chainRepo.parents c, p ∈ chainRepo.commits) ∧
     is_shallow (cloneAtDepth chainRepo 2) = true) ∧
    (shallow_commits (fetchUndo chainRepo (cloneAtDepth chainRepo 2)) = none ∧
     is_shallow (fetchUndo chainRepo (cloneAtDepth chainRepo 2)) = false ∧
     (cloneAtDepth chainRepo 2).localCommits.length <
       (fetchUndo chainRepo (cloneAtDepth chainRepo 2)).localCommits.length) :=
  ⟨⟨by decide, by decide, by decide⟩,
   depth_two_then_undo chainRepo (by decide) (by decide) (by decide)⟩

/-- C6: for a repository cloned shallow with `DepthAtRemote(2)`, a
subsequent fetch with `Deepen(1)` produces a new `ShallowBoundary` that is
disjoint from the original boundary and strictly further back (its commits
lie in a strictly deeper generation and beyond everything the shallow
clone had), and strictly increases the number of commits reachable from
`HEAD`. -/
theorem depth_two_then_deepen_one (g : RemoteRepo)
    (hsh : is_shallow (cloneAtDepth g 2) = true) :
    (∀ c ∈ (fetchDeepen g 2 1 (cloneAtDepth g 2)).shallowFile,
       c ∉ (cloneAtDepth g 2).shallowFile) ∧
    (∀ c ∈ (fetchDeepen g 2 1 (cloneAtDepth g 2)).shallowFile,
       c ∈ layerAt g 2 ∧ c ∉ (cloneAtDepth g 2).localCommits) ∧
    (∀ d ∈ (cloneAtDepth g 2).shallowFile, d ∈ layerAt g 1) ∧
    (cloneAtDepth g 2).localCommits.length <
      (fetchDeepen g 2 1 (cloneAtDepth g 2)).localCommits.length := by
  have hnew : ∀ c ∈ (fetchDeepen g 2 1 (cloneAtDepth g 2)).shallowFile,
      c ∈ layerAt g 2 := fun c hc => depthBoundary_subset_layer g 3 hc
  have hold : ∀ d ∈ (cloneAtDepth g 2).shallowFile, d ∈ layerAt g 1 :=
    fun d hd => depthBoundary_subset_layer g 2 hd
  refine ⟨?_, ?_, hold, ?_⟩
  · intro c hc hcontra
    exact layerAt_disjoint (Nat.lt_succ_self 1) (hold c hcontra) (hnew c hc)
  · intro c hc
    exact ⟨hnew c hc, not_mem_seenAt_of_mem_layerAt_succ (hnew c hc)⟩
  · have hb : depthBoundary g 2 ≠ [] := by
      simpa [is_shallow, cloneAtDepth, List.isEmpty_iff] using hsh
    have hb' : depthBoundary g (1 + 1) ≠ [] := hb
    exact seenAt_length_strict g (layer_succ_nonempty_of_boundary hb')

theorem depth_two_then_deepen_one_witness :
    is_shallow (cloneAtDepth chainRepo 2) = true ∧
    ((∀ c ∈ (fetchDeepen chainRepo 2 1 (cloneAtDepth chainRepo 2)).shallowFile,
        c ∉ (cloneAtDepth chainRepo 2).shallowFile) ∧
     (∀ c ∈ (fetchDeepen chainRepo 2 1 (cloneAtDepth chainRepo 2)).shallowFile,
        c ∈ layerAt chainRepo 2 ∧ c ∉ (cloneAtDepth chainRepo 2).localCommits) ∧
     (∀ d ∈ (cloneAtDepth chainRepo 2).shallowFile, d ∈ layerAt chainRepo 1) ∧
     (cloneAtDepth chainRepo 2).localCommits.length <
       (fetchDeepen chainRepo 2 1 (cloneAtDepth chainRepo 2)).localCommits.length) :=
  ⟨by decide, depth_two_then_deepen_one chainRepo (by decide)⟩

/-- C7: for every shallow repository (here: one cloned shallow at some
depth `n`), a fetch with `Since{cutoff}` whose cutoff predates the
repository's first commit yields an empty `ShallowBoundary` — the
repository is fully unshallowed — and gains strictly more commits
reachable from `HEAD`. -/
theorem since_before_first_commit_unshallows (g : RemoteRepo) (n : Nat)
    (cutoff : Int)
    (hmem : g.head ∈ g.commits)
    (hclosed : ∀ c ∈ g.commits, ∀ p ∈ g.parents c, p ∈ g.commits)
    (hsh : is_shallow (cloneAtDepth g n) = true)
    (hcut : ∀ c ∈ g.commits, cutoff < g.time c) :
    shallow_commits (fetchSince g cutoff (cloneAtDepth g n)) = none ∧
    is_shallow (fetchSince g cutoff (cloneAtDepth g n)) = false ∧
    (cloneAtDepth g n).localCommits.length <
      (fetchSince g cutoff (cloneAtDepth g n)).localCommits.length := by
  have hsub := seenAt_subset_commits g hmem hclosed g.commits.length
  have hbnd : sinceBoundary g cutoff = [] := by
    rw [sinceBoundary, List.filter_eq_nil_iff]
    intro c hc
    have hcc : c ∈ g.commits := hsub hc
    simp only [Bool.and_eq_true, List.any_eq_true, decide_eq_true_eq, not_and]
    rintro - ⟨p, hp, hlt⟩
    exact absurd hlt (not_lt.mpr (le_of_lt (hcut p (hclosed c hcc p hp))))
  have hloc : (reachable g).filter (fun c => decide (cutoff ≤ g.time c)) =
      reachable g := by
    rw [List.filter_eq_self]
    intro c hc
    exact decide_eq_true (le_of_lt (hcut c (hsub hc)))
  refine ⟨?_, ?_, ?_⟩
  · simp [fetchSince, shallow_commits, hbnd]
  · simp [fetchSince, is_shallow, hbnd]
  · have hb : depthBoundary g n ≠ [] := by
      simpa [is_shallow, cloneAtDepth, List.isEmpty_iff] using hsh
    have := shallow_count_lt_reachable g n hmem hclosed hb
    simpa [fetchSince, cloneAtDepth, hloc] using this

theorem since_before_first_commit_unshallows_witness :
    (chainRepo.head ∈ chainRepo.commits ∧
     (∀ c ∈ chainRepo.commits, ∀ p ∈ chainRepo.parents c, p ∈ chainRepo.commits) ∧
     is_shallow (cloneAtDepth chainRepo 2) = true ∧
     (∀ c ∈ chainRepo.commits, (0 : Int) < chainRepo.time c)) ∧
    (shallow_commits (fetchSince chainRepo 0 (cloneAtDepth chainRepo 2)) = none ∧
     is_shallow (fetchSince chainRepo 0 (cloneAtDepth chainRepo 2)) = false ∧
     (cloneAtDepth chainRepo 2).localCommits.length <
       (fetchSince chainRepo 0 (cloneAtDepth chainRepo 2)).localCommits.length) :=
  ⟨⟨by decide, by decide, by decide, by decide⟩,
   since_before_first_commit_unshallows chainRepo 2 0 (by decide) (by decide)
     (by decide) (by decide)⟩
